import Mathlib

/-!
Verification development for the `mf-deps-manager` CLI.

The core of the repository (`src/dependency-manager.ts`, `src/update-checker.ts`,
`src/validator.ts`) is shallowly embedded below: JavaScript objects become
association lists (insertion order preserved, as `Object.entries` iterates
string keys in insertion order), the functions `gt` / `satisfies` of the
`semver` library are modelled over numeric `major.minor.patch` versions, thrown exceptions
become `Except String`, and the interactive confirmation prompt becomes an
explicit `confirm : String → Bool` oracle.
-/

deriving instance DecidableEq for Except

namespace MfDeps

/-! ### Strings as character lists -/

/-- Test whether `p` is a leading segment of `s`, on character lists. -/
def listStarts : List Char → List Char → Bool
  | [], _ => true
  | _ :: _, [] => false
  | p :: ps, c :: cs => p = c && listStarts ps cs

/-- Model of JavaScript `s.startsWith(p)`. -/
def strStarts (s p : String) : Bool := listStarts p.data s.data

/-- Drop the first `n` characters of a string. -/
def strDrop (s : String) (n : Nat) : String := ⟨s.data.drop n⟩

/-- Split a character list on a separator character. -/
def splitChars (sep : Char) : List Char → List (List Char)
  | [] => [[]]
  | c :: cs =>
    if c = sep then [] :: splitChars sep cs
    else
      match splitChars sep cs with
      | g :: gs => (c :: g) :: gs
      | [] => [[c]]

/-- Numeric value of a nonempty all-digit character list. -/
def digitsToNat : List Char → Nat → Nat
  | [], acc => acc
  | c :: cs, acc => digitsToNat cs (acc * 10 + (c.toNat - 48))

/-- Parse a nonempty all-digit character list as a natural number. -/
def parseNumPart (cs : List Char) : Option Nat :=
  if cs ≠ [] ∧ cs.all Char.isDigit then some (digitsToNat cs 0) else none

/-! ### Semantic versions (model of the `semver` library) -/

/-- A parsed semantic version `major.minor.patch`. -/
structure Version where
  major : Nat
  minor : Nat
  patch : Nat
deriving DecidableEq, Repr

/-- Strict semantic-version ordering (lexicographic on major, minor, patch). -/
def verLt (a b : Version) : Prop :=
  a.major < b.major ∨
    (a.major = b.major ∧
      (a.minor < b.minor ∨ (a.minor = b.minor ∧ a.patch < b.patch)))

instance (a b : Version) : Decidable (verLt a b) := by
  unfold verLt; infer_instance

/-- Boolean strict semantic-version ordering. -/
def verLtB (a b : Version) : Bool := decide (verLt a b)

/-- Boolean non-strict semantic-version ordering. -/
def verLeB (a b : Version) : Bool := verLtB a b || a == b

/-- Parse `"X.Y.Z"` with numeric components as a `Version`. -/
def parseSemver (s : String) : Option Version :=
  match splitChars '.' s.data with
  | [a, b, c] =>
    match parseNumPart a, parseNumPart b, parseNumPart c with
    | some ma, some mb, some mc => some ⟨ma, mb, mc⟩
    | _, _, _ => none
  | _ => none

/-- Model of `semver.gt(a, b)`: parses both (throwing `Invalid Version`
on the first unparseable argument) and compares strictly. -/
def semverGtE (a b : String) : Except String Bool :=
  match parseSemver a with
  | none => .error ("Invalid Version: " ++ a)
  | some va =>
    match parseSemver b with
    | none => .error ("Invalid Version: " ++ b)
    | some vb => .ok (verLtB vb va)

/-- Exclusive upper bound of a caret range `^r`. -/
def caretUpper (r : Version) : Version :=
  if r.major > 0 then ⟨r.major + 1, 0, 0⟩
  else if r.minor > 0 then ⟨0, r.minor + 1, 0⟩
  else ⟨0, 0, r.patch + 1⟩

/-- Does version `t` satisfy the range string `range`? Core of the model of
`semver.satisfies`, for operator, caret/tilde and exact ranges. -/
def satisfiesCore (t : Version) (range : String) : Bool :=
  if strStarts range ">=" then
    match parseSemver (strDrop range 2) with
    | some r => verLeB r t
    | none => false
  else if strStarts range "<=" then
    match parseSemver (strDrop range 2) with
    | some r => verLeB t r
    | none => false
  else if strStarts range ">" then
    match parseSemver (strDrop range 1) with
    | some r => verLtB r t
    | none => false
  else if strStarts range "<" then
    match parseSemver (strDrop range 1) with
    | some r => verLtB t r
    | none => false
  else if strStarts range "^" then
    match parseSemver (strDrop range 1) with
    | some r => verLeB r t && verLtB t (caretUpper r)
    | none => false
  else if strStarts range "~" then
    match parseSemver (strDrop range 1) with
    | some r => verLeB r t && verLtB t ⟨r.major, r.minor + 1, 0⟩
    | none => false
  else
    match parseSemver range with
    | some r => t == r
    | none => false

/-- Model of `semver.satisfies(version, range)`: never throws; returns
`false` when either the version or the range fails to parse. -/
def satisfies (version range : String) : Bool :=
  match parseSemver version with
  | some t => satisfiesCore t range
  | none => false

/-! ### The version comparator (`DependencyManager.compareVersions`) -/

/-- Output of `compareVersions`: `isRangeSatisfied` is `none` when the field
is absent (`undefined`) in the returned object. -/
structure VersionRelation where
  isDowngrade : Bool
  isRangeSatisfied : Option Bool
deriving DecidableEq, Repr

/-- Does `current` start with one of the range operators, in the order the
source tests them? -/
def rangePrefixed (current : String) : Bool :=
  strStarts current ">=" || strStarts current "<=" ||
    strStarts current ">" || strStarts current "<"

/-- The regex replace in `compareVersions` that deletes every
occurrence of `^ ~ > = <` from a version string. -/
def cleanVersion (s : String) : String :=
  ⟨s.data.filter (fun c =>
    !(c = '^' || c = '~' || c = '>' || c = '=' || c = '<'))⟩

/-- Embedding of `DependencyManager.compareVersions`. The caret/tilde branch
of the source returns the same expression as the fall-through branch; both
are kept to mirror the shape of the source. -/
def compareVersions (current target : String) : Except String VersionRelation :=
  if rangePrefixed current then
    .ok ⟨false, some (satisfies target current)⟩
  else
    let cleanCurrent := cleanVersion current
    let cleanTarget := cleanVersion target
    if strStarts current "^" || strStarts current "~" then
      match semverGtE cleanCurrent cleanTarget with
      | .ok g => .ok ⟨g, none⟩
      | .error e => .error e
    else
      match semverGtE cleanCurrent cleanTarget with
      | .ok g => .ok ⟨g, none⟩
      | .error e => .error e

/-! ### JavaScript objects as association lists -/

/-- Model of JavaScript property read `m[k]` on a string-keyed object. -/
def jsGet {α : Type} (m : List (String × α)) (k : String) : Option α :=
  match m with
  | [] => none
  | (k', v) :: rest => if k' = k then some v else jsGet rest k

/-- Model of JavaScript property write `m[k] = v`: an existing key keeps its
position and is overwritten; a new key is appended. -/
def jsSet {α : Type} (m : List (String × α)) (k : String) (v : α) :
    List (String × α) :=
  match m with
  | [] => [(k, v)]
  | (k', v') :: rest =>
    if k' = k then (k, v) :: rest else (k', v') :: jsSet rest k v

/-! ### The reconciliation engine (`DependencyManager.update`) -/

/-- A per-category catalog: package name to version string, in file order. -/
abbrev Catalog := List (String × String)

/-- The manifest (`package.json`): the three dependency buckets, each
independently optional. -/
structure PackageJson where
  dependencies : Option (List (String × String))
  devDependencies : Option (List (String × String))
  peerDependencies : Option (List (String × String))
deriving DecidableEq, Repr

/-- One pending change recorded by `update` (the `UpdateInfo` object). -/
structure UpdateInfo where
  current : String
  new : String
  category : String
  isDowngrade : Bool
  isRangeSatisfied : Option Bool
deriving DecidableEq, Repr

/-- The inner loop of `update` over the catalogs for one package: each
catalog whose entry for `pkg` is truthy (nonempty) and differs textually
from `currentVersion` overwrites the accumulated `UpdateInfo`; a comparator
exception aborts. -/
def findUpdateGo (pkg currentVersion : String) (acc : Option UpdateInfo) :
    List (String × Catalog) → Except String (Option UpdateInfo)
  | [] => .ok acc
  | (category, catalog) :: rest =>
    match jsGet catalog pkg with
    | none => findUpdateGo pkg currentVersion acc rest
    | some v =>
      if v ≠ "" ∧ v ≠ currentVersion then
        match compareVersions currentVersion v with
        | .error e => .error e
        | .ok cmp =>
          findUpdateGo pkg currentVersion
            (some ⟨currentVersion, v, category, cmp.isDowngrade,
              cmp.isRangeSatisfied⟩) rest
      else findUpdateGo pkg currentVersion acc rest

/-- The middle loop of `update` over the entries of one bucket, accumulating the
per-bucket `updates[depType]` object. -/
def bucketUpdatesGo (catalogs : List (String × Catalog))
    (acc : List (String × UpdateInfo)) :
    List (String × String) → Except String (List (String × UpdateInfo))
  | [] => .ok acc
  | (pkg, currentVersion) :: rest =>
    match findUpdateGo pkg currentVersion none catalogs with
    | .error e => .error e
    | .ok none => bucketUpdatesGo catalogs acc rest
    | .ok (some info) => bucketUpdatesGo catalogs (jsSet acc pkg info) rest

/-- Updates recorded for one (possibly absent) bucket. -/
def computeBucket (catalogs : List (String × Catalog)) :
    Option (List (String × String)) →
      Except String (List (String × UpdateInfo))
  | none => .ok []
  | some bucket => bucketUpdatesGo catalogs [] bucket

/-- The `updates` record of `update`, one object per bucket. -/
structure Updates where
  dependencies : List (String × UpdateInfo)
  devDependencies : List (String × UpdateInfo)
  peerDependencies : List (String × UpdateInfo)
deriving DecidableEq, Repr

/-- The scan phase of `update`: all three buckets against all catalogs. -/
def computeUpdates (pj : PackageJson) (catalogs : List (String × Catalog)) :
    Except String Updates :=
  match computeBucket catalogs pj.dependencies with
  | .error e => .error e
  | .ok d =>
    match computeBucket catalogs pj.devDependencies with
    | .error e => .error e
    | .ok dv =>
      match computeBucket catalogs pj.peerDependencies with
      | .error e => .error e
      | .ok p => .ok ⟨d, dv, p⟩

/-- The `hasUpdates` flag: set exactly when some bucket recorded a change. -/
def hasUpdates (u : Updates) : Bool :=
  !u.dependencies.isEmpty || !u.devDependencies.isEmpty ||
    !u.peerDependencies.isEmpty

/-- The apply loop of `update` over one bucket: a downgrade asks `confirm`;
a peer change whose range is already satisfied is skipped regardless. -/
def applyBucket (confirm : String → Bool) (isPeer : Bool) :
    List (String × UpdateInfo) → List (String × String) →
      List (String × String)
  | [], bucket => bucket
  | (pkg, info) :: rest, bucket =>
    let shouldUpdate :=
      (if info.isDowngrade then confirm pkg else true) &&
        !(isPeer && info.isRangeSatisfied == some true)
    applyBucket confirm isPeer rest
      (if shouldUpdate then jsSet bucket pkg info.new else bucket)

/-- Packages prompted for confirmation while applying one bucket: exactly
the recorded downgrades (the prompt precedes the peer-range skip). -/
def promptedPkgs (ups : List (String × UpdateInfo)) : List String :=
  (ups.filter (fun x => x.2.isDowngrade)).map Prod.fst

/-- Outcome of one `update` run: the reported change set, the resulting
manifest, whether `package.json` was saved, and who was prompted. -/
structure UpdateResult where
  updates : Updates
  manifest : PackageJson
  saved : Bool
  prompts : List String
deriving DecidableEq, Repr

/-- Embedding of `DependencyManager.update`: scan, early return when
nothing changed, dry-run early return, otherwise apply and save. -/
def update (pj : PackageJson) (catalogs : List (String × Catalog))
    (dryRun : Bool) (confirm : String → Bool) :
    Except String UpdateResult :=
  match computeUpdates pj catalogs with
  | .error e => .error e
  | .ok u =>
    if !hasUpdates u then .ok ⟨u, pj, false, []⟩
    else if dryRun then .ok ⟨u, pj, false, []⟩
    else
      .ok ⟨u,
        ⟨pj.dependencies.map (applyBucket confirm false u.dependencies),
         pj.devDependencies.map (applyBucket confirm false u.devDependencies),
         pj.peerDependencies.map
           (applyBucket confirm true u.peerDependencies)⟩,
        true,
        promptedPkgs u.dependencies ++ promptedPkgs u.devDependencies ++
          promptedPkgs u.peerDependencies⟩

/-! ### The catalog refresher (`UpdateChecker.updateCategory`) -/

/-- File-system side effects of one refresh, in order. -/
inductive RefreshEvent where
  | backup
  | write
deriving DecidableEq, Repr

/-- Outcome of one `updateCategory` run. -/
structure RefreshResult where
  updatedDeps : List (String × String)
  updateCount : Nat
  updated : List String
  unchanged : List String
  failed : List String
  events : List RefreshEvent
  fileAfter : List (String × String)
deriving DecidableEq, Repr

/-- The per-package loop of `updateCategory`: look each package up in the
registry (`none` models a thrown lookup error), keep the current version on
failure, count textual changes. Returns (updatedDeps, updateCount,
updated, unchanged, failed). -/
def refreshGo (reg : String → Option String) :
    List (String × String) →
      List (String × String) × Nat × List String × List String × List String
  | [] => ([], 0, [], [], [])
  | (pkg, currentVersion) :: rest =>
    let (deps, n, up, un, fl) := refreshGo reg rest
    match reg pkg with
    | some latestVersion =>
      if latestVersion ≠ currentVersion then
        ((pkg, latestVersion) :: deps, n + 1, pkg :: up, un, fl)
      else ((pkg, latestVersion) :: deps, n, up, pkg :: un, fl)
    | none => ((pkg, currentVersion) :: deps, n, up, un, pkg :: fl)

/-- Embedding of `UpdateChecker.updateCategory` on an already-loaded
catalog: when at least one version changed, the file is backed up and then
rewritten with the full updated catalog; otherwise it is left untouched. -/
def updateCategory (deps : List (String × String))
    (reg : String → Option String) : RefreshResult :=
  let (updatedDeps, n, up, un, fl) := refreshGo reg deps
  if n > 0 then ⟨updatedDeps, n, up, un, fl, [.backup, .write], updatedDeps⟩
  else ⟨updatedDeps, n, up, un, fl, [], deps⟩

/-! ### Catalog validation (`validateCatalog`) -/

/-- JSON values, as produced by `JSON.parse`. -/
inductive Json where
  | null
  | bool (b : Bool)
  | num (n : Int)
  | str (s : String)
  | arr (xs : List Json)
  | obj (kvs : List (String × Json))

/-- Is this JSON value `null`? (`json === null`). -/
def jsIsNull : Json → Bool
  | .null => true
  | _ => false

/-- Model of JavaScript `typeof`: note `typeof null` and `typeof []` are
both `"object"`. -/
def jsTypeof : Json → String
  | .null => "object"
  | .bool _ => "boolean"
  | .num _ => "number"
  | .str _ => "string"
  | .arr _ => "object"
  | .obj _ => "object"

/-- Model of `Object.entries`: own enumerable entries; array indices become
string keys. (Primitives never reach this point in the validator.) -/
def jsonEntries : Json → List (String × Json)
  | .obj kvs => kvs
  | .arr xs => (xs.enum.map (fun p => (toString p.1, p.2)))
  | _ => []

/-- The value-checking loop of `validateCatalog` over one document. -/
def validateEntries (category : String) :
    List (String × Json) → Except String Unit
  | [] => .ok ()
  | (pkg, version) :: rest =>
    if jsTypeof version ≠ "string" then
      .error ("Invalid version for " ++ pkg ++ " in " ++ category ++
        ".json: must be a string")
    else validateEntries category rest

/-- Embedding of the per-document shape check of `validateCatalog`:
the top-level `typeof` must be `"object"` and not `null`, and every entry
value must be a string. -/
def validateCatalogDoc (category : String) (json : Json) :
    Except String Unit :=
  if jsTypeof json ≠ "object" ∨ jsIsNull json then
    .error ("Invalid format in " ++ category ++ ".json: must be an object")
  else validateEntries category (jsonEntries json)

/-! ### Auxiliary predicates used by the statements -/

/-- An association list has pairwise distinct keys (the invariant every
list obtained from a parsed JSON object enjoys). -/
def NodupKeys {α : Type} (m : List (String × α)) : Prop :=
  (m.map Prod.fst).Nodup

/-- All buckets of a manifest have pairwise distinct keys. -/
def manifestWF (pj : PackageJson) : Prop :=
  (∀ b, pj.dependencies = some b → NodupKeys b) ∧
    (∀ b, pj.devDependencies = some b → NodupKeys b) ∧
    (∀ b, pj.peerDependencies = some b → NodupKeys b)

/-- No two supplied catalogs declare the same package with different
nonempty versions. -/
def catalogsAgree (catalogs : List (String × Catalog)) : Prop :=
  ∀ c1 k1 c2 k2 pkg v1 v2, (c1, k1) ∈ catalogs → (c2, k2) ∈ catalogs →
    jsGet k1 pkg = some v1 → jsGet k2 pkg = some v2 →
    v1 ≠ "" → v2 ≠ "" → v1 = v2

/-- Membership of a pending change in any bucket of the change set. -/
def inUpdates (u : Updates) (pkg : String) (info : UpdateInfo) : Prop :=
  (pkg, info) ∈ u.dependencies ∨ (pkg, info) ∈ u.devDependencies ∨
    (pkg, info) ∈ u.peerDependencies

/-- Did the registry return a version differing from the catalog entry? -/
def lookupChanged (reg : String → Option String) (p : String × String) :
    Bool :=
  match reg p.1 with
  | some l => decide (l ≠ p.2)
  | none => false

/-- Did the registry return exactly the catalog entry? -/
def lookupSame (reg : String → Option String) (p : String × String) : Bool :=
  match reg p.1 with
  | some l => decide (l = p.2)
  | none => false

/-- Did the registry lookup fail for this package? -/
def lookupFailed (reg : String → Option String) (p : String × String) :
    Bool :=
  (reg p.1).isNone

/-- The catalog entry after the refresh: the registry version when the
lookup succeeded, the retained current version otherwise. -/
def applyReg (reg : String → Option String) (p : String × String) :
    String × String :=
  (p.1, match reg p.1 with | some l => l | none => p.2)

/-- The registry of the concrete refresher scenario of the specification:
`a` is already at its latest version, `b` has `2.1.0` available. -/
def regScenario : String → Option String := fun p =>
  if p = "a" then some "1.0.0" else if p = "b" then some "2.1.0" else none

/-! ### Basic lemmas on the version order -/

theorem verLt_irrefl (a : Version) : ¬ verLt a a := by
  unfold verLt; omega

theorem verLtB_eq_true_iff (a b : Version) : verLtB a b = true ↔ verLt a b := by
  simp [verLtB]

theorem verLeB_eq_true_iff (a b : Version) :
    verLeB a b = true ↔ (verLt a b ∨ a = b) := by
  simp [verLeB, verLtB]

/-! ### Claim C1 -/

/-- C1: for a bare or caret/tilde-prefixed `current`, `compareVersions`
returns no `isRangeSatisfied` field and `isDowngrade = true` exactly when
the version obtained by stripping `^ ~ > = <` from `current` is strictly
greater, in semantic-version order, than the one obtained by stripping
them from `target`; on equal inputs it does not fail and reports
`isDowngrade = false`. -/
theorem C1_comparator_bare (current target : String) (a b : Version)
    (hnr : rangePrefixed current = false)
    (ha : parseSemver (cleanVersion current) = some a)
    (hb : parseSemver (cleanVersion target) = some b) :
    compareVersions current target = .ok ⟨verLtB b a, none⟩ ∧
      (verLtB b a = true ↔ verLt b a) ∧
      (current = target → compareVersions current target = .ok ⟨false, none⟩) := by
  have h1 : compareVersions current target = .ok ⟨verLtB b a, none⟩ := by
    unfold compareVersions
    rw [hnr]
    simp [semverGtE, ha, hb]
  refine ⟨h1, verLtB_eq_true_iff b a, ?_⟩
  intro he
  subst he
  rw [ha] at hb
  cases hb
  have : verLtB a a = false := by
    simp [verLtB, verLt_irrefl]
  rw [h1, this]

/-- Witness for C1 at `current = "^2.0.0"`, `target = "1.5.0"`. -/
theorem C1_comparator_bare_witness :
    compareVersions "^2.0.0" "1.5.0" = .ok ⟨verLtB ⟨1, 5, 0⟩ ⟨2, 0, 0⟩, none⟩ :=
  (C1_comparator_bare "^2.0.0" "1.5.0" ⟨2, 0, 0⟩ ⟨1, 5, 0⟩
    (by decide) (by decide) (by decide)).1

/-! ### Claim C2 -/

/-- C2: when `current` starts with one of `>=`, `<=`, `>`, `<`, the
comparator returns `isDowngrade = false` and `isRangeSatisfied` equal to
whether `target` satisfies the range expressed by `current`; the final
conjuncts characterise that satisfaction through the semantic-version
order for each operator. -/
theorem C2_comparator_range (current target : String)
    (h : rangePrefixed current = true) :
    compareVersions current target =
      .ok ⟨false, some (satisfies target current)⟩ ∧
    (∀ t, parseSemver target = some t →
      (∀ r, strStarts current ">=" = true →
        parseSemver (strDrop current 2) = some r →
        (satisfies target current = true ↔ (verLt r t ∨ r = t))) ∧
      (∀ r, strStarts current ">=" = false → strStarts current "<=" = true →
        parseSemver (strDrop current 2) = some r →
        (satisfies target current = true ↔ (verLt t r ∨ t = r))) ∧
      (∀ r, strStarts current ">=" = false → strStarts current "<=" = false →
        strStarts current ">" = true →
        parseSemver (strDrop current 1) = some r →
        (satisfies target current = true ↔ verLt r t)) ∧
      (∀ r, strStarts current ">=" = false → strStarts current "<=" = false →
        strStarts current ">" = false → strStarts current "<" = true →
        parseSemver (strDrop current 1) = some r →
        (satisfies target current = true ↔ verLt t r))) ∧
    (parseSemver target = none → satisfies target current = false) := by
  refine ⟨?_, ?_, ?_⟩
  · unfold compareVersions
    rw [h]
    simp
  · intro t ht
    refine ⟨?_, ?_, ?_, ?_⟩
    · intro r h1 hr
      simp [satisfies, ht, satisfiesCore, h1, hr, verLeB_eq_true_iff]
    · intro r h1 h2 hr
      simp [satisfies, ht, satisfiesCore, h1, h2, hr, verLeB_eq_true_iff]
    · intro r h1 h2 h3 hr
      simp [satisfies, ht, satisfiesCore, h1, h2, h3, hr, verLtB_eq_true_iff]
    · intro r h1 h2 h3 h4 hr
      simp [satisfies, ht, satisfiesCore, h1, h2, h3, h4, hr, verLtB_eq_true_iff]
  · intro ht
    simp [satisfies, ht]

/-- Witness for C2 at `current = ">=1.0.0"`, `target = "1.5.0"`. -/
theorem C2_comparator_range_witness :
    compareVersions ">=1.0.0" "1.5.0" =
      .ok ⟨false, some (satisfies "1.5.0" ">=1.0.0")⟩ :=
  (C2_comparator_range ">=1.0.0" "1.5.0" (by decide)).1

/-! ### Claim C8 (corrected) -/

/-- C8 counterexample: with a range-prefixed `current`, a malformed
`target` does not make classification fail; the comparator returns a
classification with `isRangeSatisfied = false` instead of an error. -/
theorem C8_counterexample :
    compareVersions ">=1.0.0" "not-a-version" = .ok ⟨false, some false⟩ := by
  decide

/-- C8 amended: in the bare/caret/tilde branch a malformed version (in
either argument position) makes classification fail with an error naming
the offending cleaned string — `current` is parsed first — while in the
range branch malformed input never fails: `satisfies` simply reports
`false`, so a classification is still returned. -/
theorem C8_amended_parse_errors (current target : String) :
    (rangePrefixed current = false →
      parseSemver (cleanVersion current) = none →
      compareVersions current target =
        .error ("Invalid Version: " ++ cleanVersion current)) ∧
    (∀ a, rangePrefixed current = false →
      parseSemver (cleanVersion current) = some a →
      parseSemver (cleanVersion target) = none →
      compareVersions current target =
        .error ("Invalid Version: " ++ cleanVersion target)) ∧
    (rangePrefixed current = true →
      compareVersions current target =
        .ok ⟨false, some (satisfies target current)⟩) := by
  refine ⟨?_, ?_, ?_⟩
  · intro hnr hc
    unfold compareVersions
    rw [hnr]
    simp [semverGtE, hc]
  · intro a hnr hc ht
    unfold compareVersions
    rw [hnr]
    simp [semverGtE, hc, ht]
  · intro h
    unfold compareVersions
    rw [h]
    simp

/-- Witness for the amended C8 at `current = "abc"`, `target = "1.0.0"`. -/
theorem C8_amended_parse_errors_witness :
    compareVersions "abc" "1.0.0" =
      .error ("Invalid Version: " ++ cleanVersion "abc") :=
  (C8_amended_parse_errors "abc" "1.0.0").1 (by decide) (by decide)

/-! ### Lemmas on the association-list primitives -/

theorem jsGet_cons_self {α : Type} (k : String) (v : α)
    (rest : List (String × α)) : jsGet ((k, v) :: rest) k = some v := by
  simp [jsGet]

theorem jsGet_cons_ne {α : Type} (k0 k : String) (v : α)
    (rest : List (String × α)) (h : k0 ≠ k) :
    jsGet ((k0, v) :: rest) k = jsGet rest k := by
  simp [jsGet, h]

theorem jsSet_cons_eq {α : Type} (k : String) (v0 v : α)
    (rest : List (String × α)) :
    jsSet ((k, v0) :: rest) k v = (k, v) :: rest := by
  simp [jsSet]

theorem jsSet_cons_ne {α : Type} (k0 k : String) (v0 v : α)
    (rest : List (String × α)) (h : k0 ≠ k) :
    jsSet ((k0, v0) :: rest) k v = (k0, v0) :: jsSet rest k v := by
  simp [jsSet, h]

theorem nodupKeys_cons {α : Type} (k0 : String) (v0 : α)
    (rest : List (String × α)) :
    NodupKeys ((k0, v0) :: rest) ↔
      (k0 ∉ rest.map Prod.fst ∧ NodupKeys rest) := by
  simp [NodupKeys]

theorem jsGet_jsSet_self {α : Type} (m : List (String × α)) (k : String)
    (v : α) : jsGet (jsSet m k v) k = some v := by
  induction m with
  | nil => simp [jsSet, jsGet]
  | cons p rest ih =>
    obtain ⟨k', v'⟩ := p
    by_cases h : k' = k
    · subst h
      rw [jsSet_cons_eq, jsGet_cons_self]
    · rw [jsSet_cons_ne _ _ _ _ _ h, jsGet_cons_ne _ _ _ _ h]
      exact ih

theorem jsGet_jsSet_ne {α : Type} (m : List (String × α)) (k k' : String)
    (v : α) (h : k' ≠ k) : jsGet (jsSet m k v) k' = jsGet m k' := by
  induction m with
  | nil => simp [jsSet, jsGet, Ne.symm h]
  | cons p rest ih =>
    obtain ⟨k0, v0⟩ := p
    by_cases h0 : k0 = k
    · subst h0
      rw [jsSet_cons_eq, jsGet_cons_ne _ _ _ _ (Ne.symm h),
        jsGet_cons_ne _ _ _ _ (Ne.symm h)]
    · rw [jsSet_cons_ne _ _ _ _ _ h0]
      by_cases h1 : k0 = k'
      · subst h1
        rw [jsGet_cons_self, jsGet_cons_self]
      · rw [jsGet_cons_ne _ _ _ _ h1, jsGet_cons_ne _ _ _ _ h1]
        exact ih

theorem mem_jsSet {α : Type} (m : List (String × α)) (k : String) (v : α)
    (p : String × α) : p ∈ jsSet m k v → p ∈ m ∨ p = (k, v) := by
  induction m with
  | nil =>
    intro hp
    right
    simpa [jsSet] using hp
  | cons q rest ih =>
    obtain ⟨k0, v0⟩ := q
    intro hp
    by_cases h0 : k0 = k
    · subst h0
      rw [jsSet_cons_eq] at hp
      rcases List.mem_cons.mp hp with h | h
      · right; exact h
      · left; exact List.mem_cons.mpr (Or.inr h)
    · rw [jsSet_cons_ne _ _ _ _ _ h0] at hp
      rcases List.mem_cons.mp hp with h | h
      · left; exact List.mem_cons.mpr (Or.inl h)
      · rcases ih h with h' | h'
        · left; exact List.mem_cons.mpr (Or.inr h')
        · right; exact h'

theorem mem_keys_jsSet {α : Type} (m : List (String × α)) (k a : String)
    (v : α) : a ∈ (jsSet m k v).map Prod.fst ↔
      a ∈ m.map Prod.fst ∨ a = k := by
  induction m with
  | nil => simp [jsSet]
  | cons q rest ih =>
    obtain ⟨k0, v0⟩ := q
    by_cases h0 : k0 = k
    · subst h0
      rw [jsSet_cons_eq]
      simp
      tauto
    · rw [jsSet_cons_ne _ _ _ _ _ h0]
      simp only [List.map_cons, List.mem_cons, ih]
      tauto

theorem nodupKeys_jsSet {α : Type} (m : List (String × α)) (k : String)
    (v : α) : NodupKeys m → NodupKeys (jsSet m k v) := by
  induction m with
  | nil =>
    intro _
    simp [jsSet, NodupKeys]
  | cons q rest ih =>
    obtain ⟨k0, v0⟩ := q
    intro h
    rw [nodupKeys_cons] at h
    by_cases h0 : k0 = k
    · subst h0
      rw [jsSet_cons_eq, nodupKeys_cons]
      exact h
    · rw [jsSet_cons_ne _ _ _ _ _ h0, nodupKeys_cons]
      refine ⟨?_, ih h.2⟩
      intro hc
      rcases (mem_keys_jsSet rest k k0 v).mp hc with h' | h'
      · exact h.1 h'
      · exact h0 h'

theorem jsGet_eq_some_of_mem {α : Type} (m : List (String × α))
    (k : String) (v : α) : NodupKeys m → (k, v) ∈ m →
    jsGet m k = some v := by
  induction m with
  | nil =>
    intro _ hm
    simp at hm
  | cons q rest ih =>
    obtain ⟨k0, v0⟩ := q
    intro hnd hm
    rw [nodupKeys_cons] at hnd
    rcases List.mem_cons.mp hm with h | h
    · injection h with h1 h2
      subst h1
      subst h2
      exact jsGet_cons_self _ _ _
    · have hk : k0 ≠ k := by
        intro he
        subst he
        exact hnd.1 (List.mem_map.mpr ⟨(k0, v), h, rfl⟩)
      rw [jsGet_cons_ne _ _ _ _ hk]
      exact ih hnd.2 h

theorem mem_of_jsGet_eq_some {α : Type} (m : List (String × α))
    (k : String) (v : α) : jsGet m k = some v → (k, v) ∈ m := by
  induction m with
  | nil =>
    intro h
    simp [jsGet] at h
  | cons q rest ih =>
    obtain ⟨k0, v0⟩ := q
    intro h
    by_cases h0 : k0 = k
    · subst h0
      rw [jsGet_cons_self] at h
      injection h with h
      subst h
      exact List.mem_cons.mpr (Or.inl rfl)
    · rw [jsGet_cons_ne _ _ _ _ h0] at h
      exact List.mem_cons.mpr (Or.inr (ih h))

/-! ### Claim C9 (corrected) -/

theorem validateEntries_ok_iff (c : String) (l : List (String × Json)) :
    validateEntries c l = .ok () ↔ ∀ p ∈ l, jsTypeof p.2 = "string" := by
  induction l with
  | nil => simp [validateEntries]
  | cons p t ih =>
    obtain ⟨pkg, v⟩ := p
    by_cases hv : jsTypeof v = "string"
    · simp [validateEntries, hv, ih, List.forall_mem_cons]
    · simp [validateEntries, hv, List.forall_mem_cons]

theorem validateEntries_error_mem (c : String) (l : List (String × Json)) :
    validateEntries c l = .ok () ∨
      ∃ pkg v, (pkg, v) ∈ l ∧ jsTypeof v ≠ "string" ∧
        validateEntries c l =
          .error ("Invalid version for " ++ pkg ++ " in " ++ c ++
            ".json: must be a string") := by
  induction l with
  | nil => left; rfl
  | cons p t ih =>
    obtain ⟨pkg, v⟩ := p
    by_cases hv : jsTypeof v = "string"
    · rcases ih with h | ⟨pk, vv, hm, hnv, he⟩
      · left; simpa [validateEntries, hv] using h
      · right
        exact ⟨pk, vv, by simp [hm], hnv, by simpa [validateEntries, hv] using he⟩
    · right
      exact ⟨pkg, v, by simp, hv, by simp [validateEntries, hv]⟩

theorem validateEntries_enumFrom (c : String) (xs : List Json) : ∀ n,
    validateEntries c
        ((List.enumFrom n xs).map (fun p => (toString p.1, p.2))) = .ok () ↔
      ∀ x ∈ xs, jsTypeof x = "string" := by
  induction xs with
  | nil => intro n; simp [validateEntries]
  | cons x t ih =>
    intro n
    by_cases hx : jsTypeof x = "string"
    · simp [List.enumFrom, validateEntries, hx, ih, List.forall_mem_cons]
    · simp [List.enumFrom, validateEntries, hx, List.forall_mem_cons]

/-- C9 counterexample: a top-level JSON array of strings is accepted by
the validator (the claim demands that every array be rejected): JavaScript
`typeof` yields `"object"` on arrays, so the array shape check passes and
its elements validate as string values. -/
theorem C9_counterexample :
    validateCatalogDoc "core" (.arr [.str "1.0.0"]) = .ok () := by decide

/-- C9 (amended): the validator rejects `null` and primitive top-level
values with an error naming the category, rejects any object value that is
not a string with an error naming the offending package and category, and
accepts exactly objects with all-string values and arrays with all-string
elements (an array passes the `typeof` object check, its indices acting as
package names). -/
theorem C9_amended_validate (category : String) (j : Json) :
    (validateCatalogDoc category j = .ok () ↔
      ((∃ kvs, j = .obj kvs ∧ ∀ p ∈ kvs, jsTypeof p.2 = "string") ∨
       (∃ xs, j = .arr xs ∧ ∀ x ∈ xs, jsTypeof x = "string"))) ∧
    (jsTypeof j ≠ "object" ∨ jsIsNull j = true →
      validateCatalogDoc category j =
        .error ("Invalid format in " ++ category ++
          ".json: must be an object")) ∧
    (∀ kvs, j = .obj kvs →
      validateCatalogDoc category j = .ok () ∨
      ∃ pkg v, (pkg, v) ∈ kvs ∧ jsTypeof v ≠ "string" ∧
        validateCatalogDoc category j =
          .error ("Invalid version for " ++ pkg ++ " in " ++ category ++
            ".json: must be a string")) := by
  cases j with
  | null => refine ⟨by simp [validateCatalogDoc, jsTypeof, jsIsNull], ?_, by simp⟩
            intro h
            simp [validateCatalogDoc, jsIsNull]
  | bool b => refine ⟨by simp [validateCatalogDoc, jsTypeof, jsIsNull], ?_, by simp⟩
              intro h
              simp [validateCatalogDoc, jsTypeof, jsIsNull]
  | num n => refine ⟨by simp [validateCatalogDoc, jsTypeof, jsIsNull], ?_, by simp⟩
             intro h
             simp [validateCatalogDoc, jsTypeof, jsIsNull]
  | str s => refine ⟨by simp [validateCatalogDoc, jsTypeof, jsIsNull], ?_, by simp⟩
             intro h
             simp [validateCatalogDoc, jsTypeof, jsIsNull]
  | arr xs =>
    have hv : validateCatalogDoc category (.arr xs) =
        validateEntries category
          ((List.enumFrom 0 xs).map (fun p => (toString p.1, p.2))) := by
      simp [validateCatalogDoc, jsTypeof, jsIsNull, jsonEntries, List.enum]
    refine ⟨?_, by simp [jsTypeof, jsIsNull], by simp⟩
    rw [hv, validateEntries_enumFrom]
    simp
  | obj kvs =>
    have hv : validateCatalogDoc category (.obj kvs) =
        validateEntries category kvs := by
      simp [validateCatalogDoc, jsTypeof, jsIsNull, jsonEntries]
    refine ⟨?_, by simp [jsTypeof, jsIsNull], ?_⟩
    · rw [hv, validateEntries_ok_iff]
      simp
    · intro kvs' he
      injection he with he
      subst he
      rw [hv]
      exact validateEntries_error_mem category kvs

/-- Witness for the amended C9 at a concrete accepted object. -/
theorem C9_amended_validate_witness :
    validateCatalogDoc "core" (.obj [("react", .str "18.2.0")]) = .ok () :=
  (C9_amended_validate "core" (.obj [("react", .str "18.2.0")])).1.mpr
    (Or.inl ⟨[("react", .str "18.2.0")], rfl, by simp [jsTypeof]⟩)

/-! ### Lemmas on the scan phase of `update` -/

theorem computeUpdates_parts (pj : PackageJson)
    (cats : List (String × Catalog)) (u : Updates)
    (h : computeUpdates pj cats = .ok u) :
    computeBucket cats pj.dependencies = .ok u.dependencies ∧
      computeBucket cats pj.devDependencies = .ok u.devDependencies ∧
      computeBucket cats pj.peerDependencies = .ok u.peerDependencies := by
  unfold computeUpdates at h
  cases h1 : computeBucket cats pj.dependencies with
  | error e => rw [h1] at h; simp at h
  | ok d =>
    rw [h1] at h
    cases h2 : computeBucket cats pj.devDependencies with
    | error e => rw [h2] at h; simp at h
    | ok dv =>
      rw [h2] at h
      cases h3 : computeBucket cats pj.peerDependencies with
      | error e => rw [h3] at h; simp at h
      | ok p =>
        rw [h3] at h
        simp only [Except.ok.injEq] at h
        subst h
        exact ⟨rfl, rfl, rfl⟩

/-- Every `some` outcome of the inner catalog loop either was the incoming
accumulator or originates from a matching catalog entry: a category listed
in the scanned catalogs whose entry for the package is nonempty and
textually different from the current declaration, with the comparator
fields attached. -/
theorem findUpdateGo_ok_some_src (pkg cur : String)
    (cats : List (String × Catalog)) :
    ∀ (acc : Option UpdateInfo) (info : UpdateInfo),
    findUpdateGo pkg cur acc cats = .ok (some info) →
    acc = some info ∨
      ∃ c k, (c, k) ∈ cats ∧ jsGet k pkg = some info.new ∧
        info.new ≠ "" ∧ info.new ≠ cur ∧ info.current = cur ∧
        info.category = c ∧
        compareVersions cur info.new =
          .ok ⟨info.isDowngrade, info.isRangeSatisfied⟩ := by
  induction cats with
  | nil =>
    intro acc info h
    left
    simpa [findUpdateGo] using h
  | cons hd tl ih =>
    intro acc info h
    obtain ⟨c, k⟩ := hd
    rw [findUpdateGo] at h
    cases hk : jsGet k pkg with
    | none =>
      rw [hk] at h
      rcases ih acc info h with h' | ⟨c', k', hm, rest⟩
      · left; exact h'
      · right; exact ⟨c', k', List.mem_cons.mpr (Or.inr hm), rest⟩
    | some v =>
      rw [hk] at h
      simp only [] at h
      by_cases hcond : v ≠ "" ∧ v ≠ cur
      · rw [if_pos hcond] at h
        cases hcmp : compareVersions cur v with
        | error e => rw [hcmp] at h; simp at h
        | ok r =>
          rw [hcmp] at h
          rcases ih _ info h with h' | ⟨c', k', hm, rest⟩
          · right
            refine ⟨c, k, List.mem_cons.mpr (Or.inl rfl), ?_⟩
            injection h' with h'
            subst h'
            exact ⟨hk, hcond.1, hcond.2, rfl, rfl, hcmp⟩
          · right; exact ⟨c', k', List.mem_cons.mpr (Or.inr hm), rest⟩
      · rw [if_neg hcond] at h
        rcases ih acc info h with h' | ⟨c', k', hm, rest⟩
        · left; exact h'
        · right; exact ⟨c', k', List.mem_cons.mpr (Or.inr hm), rest⟩

/-- Every pending change in the per-bucket accumulator either was already
in the incoming accumulator or is the scan result for some entry of the
bucket. -/
theorem bucketUpdatesGo_mem_src (cats : List (String × Catalog))
    (bucket : List (String × String)) :
    ∀ (acc ups : List (String × UpdateInfo)),
    bucketUpdatesGo cats acc bucket = .ok ups →
    ∀ pkg info, (pkg, info) ∈ ups →
      (pkg, info) ∈ acc ∨
        ∃ cur, (pkg, cur) ∈ bucket ∧
          findUpdateGo pkg cur none cats = .ok (some info) := by
  induction bucket with
  | nil =>
    intro acc ups h pkg info hm
    left
    have : acc = ups := by simpa [bucketUpdatesGo] using h
    rw [this]
    exact hm
  | cons e t ih =>
    intro acc ups h pkg info hm
    obtain ⟨pkg0, cur0⟩ := e
    rw [bucketUpdatesGo] at h
    cases hf : findUpdateGo pkg0 cur0 none cats with
    | error e' => rw [hf] at h; simp at h
    | ok o =>
      rw [hf] at h
      cases o with
      | none =>
        rcases ih acc ups h pkg info hm with h' | ⟨cur, hmem, hfind⟩
        · left; exact h'
        · right; exact ⟨cur, List.mem_cons.mpr (Or.inr hmem), hfind⟩
      | some i =>
        rcases ih _ ups h pkg info hm with h' | ⟨cur, hmem, hfind⟩
        · rcases mem_jsSet acc pkg0 i (pkg, info) h' with h1 | h1
          · left; exact h1
          · injection h1 with hA hB
            subst hA
            subst hB
            right
            exact ⟨cur0, List.mem_cons.mpr (Or.inl rfl), hf⟩
        · right; exact ⟨cur, List.mem_cons.mpr (Or.inr hmem), hfind⟩

theorem computeBucket_new_ne (cats : List (String × Catalog))
    (ob : Option (List (String × String))) (ups : List (String × UpdateInfo))
    (h : computeBucket cats ob = .ok ups) (pkg : String) (info : UpdateInfo)
    (hm : (pkg, info) ∈ ups) :
    info.new ≠ "" ∧ info.new ≠ info.current := by
  cases ob with
  | none =>
    have : ups = ([] : List (String × UpdateInfo)) := by
      simpa [computeBucket] using h.symm
    rw [this] at hm
    simp at hm
  | some bucket =>
    have h' : bucketUpdatesGo cats [] bucket = .ok ups := by
      simpa [computeBucket] using h
    rcases bucketUpdatesGo_mem_src cats bucket [] ups h' pkg info hm with
      hfalse | ⟨cur, _, hfind⟩
    · simp at hfalse
    · rcases findUpdateGo_ok_some_src pkg cur cats none info hfind with
        hfalse | ⟨c, k, _, _, hne, hnecur, hcur, _⟩
      · simp at hfalse
      · refine ⟨hne, ?_⟩
        rw [hcur]
        exact hnecur

/-! ### Claim C10 -/

/-- C10: a catalog entry whose version value is the empty string is
falsy in the scan condition and therefore never yields a pending change
for that package from that catalog: every recorded change carries a
nonempty target version that also differs from the current declaration. -/
theorem C10_empty_entry_ignored (pj : PackageJson)
    (catalogs : List (String × Catalog)) (u : Updates)
    (h : computeUpdates pj catalogs = .ok u) :
    ∀ pkg info, inUpdates u pkg info →
      info.new ≠ "" ∧ info.new ≠ info.current := by
  obtain ⟨h1, h2, h3⟩ := computeUpdates_parts pj catalogs u h
  intro pkg info hm
  rcases hm with hm | hm | hm
  · exact computeBucket_new_ne catalogs pj.dependencies u.dependencies h1
      pkg info hm
  · exact computeBucket_new_ne catalogs pj.devDependencies
      u.devDependencies h2 pkg info hm
  · exact computeBucket_new_ne catalogs pj.peerDependencies
      u.peerDependencies h3 pkg info hm

/-- Witness for C10: a manifest declaring `p` at `1.0.0` with one catalog
entry `2.0.0`; the single recorded change indeed has a nonempty target. -/
theorem C10_empty_entry_ignored_witness :
    ((⟨"1.0.0", "2.0.0", "a", false, none⟩ : UpdateInfo).new ≠ "" ∧
      (⟨"1.0.0", "2.0.0", "a", false, none⟩ : UpdateInfo).new ≠
        (⟨"1.0.0", "2.0.0", "a", false, none⟩ : UpdateInfo).current) :=
  C10_empty_entry_ignored ⟨some [("p", "1.0.0")], none, none⟩
    [("a", [("p", "2.0.0")])]
    ⟨[("p", ⟨"1.0.0", "2.0.0", "a", false, none⟩)], [], []⟩
    (by decide) "p" ⟨"1.0.0", "2.0.0", "a", false, none⟩
    (Or.inl (by decide))

/-! ### Claim C4 -/

/-- C4: a dry run never saves the manifest and never prompts: `update`
with `dryRun = true` returns the original manifest, `saved = false` and an
empty prompt list, while still reporting the full change set. -/
theorem C4_dry_run_frame (pj : PackageJson)
    (catalogs : List (String × Catalog)) (confirm : String → Bool)
    (u : Updates) (h : computeUpdates pj catalogs = .ok u) :
    update pj catalogs true confirm = .ok ⟨u, pj, false, []⟩ := by
  unfold update
  rw [h]
  cases hu : hasUpdates u <;> simp [hu]

/-- Witness for C4: a pending downgrade is found, yet the dry run leaves
the manifest alone, prompts nobody and still reports the change. -/
theorem C4_dry_run_frame_witness :
    update ⟨some [("p", "2.0.0")], none, none⟩ [("a", [("p", "1.0.0")])]
        true (fun _ => false) =
      .ok ⟨⟨[("p", ⟨"2.0.0", "1.0.0", "a", true, none⟩)], [], []⟩,
        ⟨some [("p", "2.0.0")], none, none⟩, false, []⟩ :=
  C4_dry_run_frame _ _ _ _ (by decide)

/-! ### Inversion of a successful `update` run -/

/-- The three possible shapes of a successful `update` run: nothing to do,
dry run, or apply-and-save. -/
theorem update_ok_inv (pj : PackageJson) (catalogs : List (String × Catalog))
    (dryRun : Bool) (confirm : String → Bool) (res : UpdateResult)
    (h : update pj catalogs dryRun confirm = .ok res) :
    ∃ u, computeUpdates pj catalogs = .ok u ∧ res.updates = u ∧
      ((hasUpdates u = false ∧ res = ⟨u, pj, false, []⟩) ∨
       (hasUpdates u = true ∧ dryRun = true ∧ res = ⟨u, pj, false, []⟩) ∨
       (hasUpdates u = true ∧ dryRun = false ∧
        res = ⟨u,
          ⟨pj.dependencies.map (applyBucket confirm false u.dependencies),
           pj.devDependencies.map
             (applyBucket confirm false u.devDependencies),
           pj.peerDependencies.map
             (applyBucket confirm true u.peerDependencies)⟩,
          true,
          promptedPkgs u.dependencies ++ promptedPkgs u.devDependencies ++
            promptedPkgs u.peerDependencies⟩)) := by
  unfold update at h
  cases hc : computeUpdates pj catalogs with
  | error e => rw [hc] at h; simp at h
  | ok u =>
    rw [hc] at h
    simp only [] at h
    cases hu : hasUpdates u with
    | false =>
      rw [hu] at h
      simp only [Bool.not_false, if_pos] at h
      injection h with h
      subst h
      exact ⟨u, rfl, rfl, Or.inl ⟨hu, rfl⟩⟩
    | true =>
      rw [hu] at h
      simp only [Bool.not_true, Bool.false_eq_true, if_false] at h
      cases dryRun with
      | true =>
        simp only [if_pos] at h
        injection h with h
        subst h
        exact ⟨u, rfl, rfl, Or.inr (Or.inl ⟨hu, rfl, rfl⟩)⟩
      | false =>
        simp only [Bool.false_eq_true, if_false] at h
        injection h with h
        subst h
        exact ⟨u, rfl, rfl, Or.inr (Or.inr ⟨hu, rfl, rfl⟩)⟩

/-! ### Lemmas on the apply phase of `update` -/

theorem bucketUpdatesGo_nodup (cats : List (String × Catalog))
    (bucket : List (String × String)) :
    ∀ (acc ups : List (String × UpdateInfo)), NodupKeys acc →
    bucketUpdatesGo cats acc bucket = .ok ups → NodupKeys ups := by
  induction bucket with
  | nil =>
    intro acc ups hnd h
    have he : acc = ups := by simpa [bucketUpdatesGo] using h
    rwa [← he]
  | cons e t ih =>
    obtain ⟨pkg0, cur0⟩ := e
    intro acc ups hnd h
    rw [bucketUpdatesGo] at h
    cases hf : findUpdateGo pkg0 cur0 none cats with
    | error e' => rw [hf] at h; simp at h
    | ok o =>
      rw [hf] at h
      cases o with
      | none => exact ih acc ups hnd h
      | some i => exact ih _ ups (nodupKeys_jsSet acc pkg0 i hnd) h

theorem applyBucket_jsGet_notin (confirm : String → Bool) (isPeer : Bool)
    (ups : List (String × UpdateInfo)) :
    ∀ (bucket : List (String × String)) (pkg : String),
    pkg ∉ ups.map Prod.fst →
    jsGet (applyBucket confirm isPeer ups bucket) pkg = jsGet bucket pkg := by
  induction ups with
  | nil =>
    intro bucket pkg _
    rfl
  | cons e rest ih =>
    obtain ⟨p0, i0⟩ := e
    intro bucket pkg hn
    simp only [List.map_cons, List.mem_cons] at hn
    push_neg at hn
    simp only [applyBucket]
    rw [ih _ pkg hn.2]
    by_cases hs : ((if i0.isDowngrade = true then confirm p0 else true) &&
        !(isPeer && i0.isRangeSatisfied == some true)) = true
    · rw [if_pos hs]
      exact jsGet_jsSet_ne bucket p0 pkg i0.new hn.1
    · rw [if_neg hs]

theorem applyBucket_skip (confirm : String → Bool)
    (ups : List (String × UpdateInfo)) :
    ∀ (bucket : List (String × String)) (pkg : String) (info : UpdateInfo),
    NodupKeys ups → jsGet ups pkg = some info →
    info.isRangeSatisfied = some true →
    jsGet (applyBucket confirm true ups bucket) pkg = jsGet bucket pkg := by
  induction ups with
  | nil =>
    intro bucket pkg info _ hg _
    simp [jsGet] at hg
  | cons e rest ih =>
    obtain ⟨p0, i0⟩ := e
    intro bucket pkg info hnd hg hsat
    rw [nodupKeys_cons] at hnd
    by_cases h0 : p0 = pkg
    · subst h0
      rw [jsGet_cons_self] at hg
      injection hg with hg
      subst hg
      simp only [applyBucket, hsat, beq_self_eq_true, Bool.and_self,
        Bool.true_and, Bool.not_true, Bool.and_false, Bool.false_eq_true,
        if_false]
      exact applyBucket_jsGet_notin confirm true rest bucket p0 hnd.1
    · rw [jsGet_cons_ne _ _ _ _ h0] at hg
      simp only [applyBucket]
      rw [ih _ pkg info hnd.2 hg hsat]
      by_cases hs : ((if i0.isDowngrade = true then confirm p0 else true) &&
          !(true && i0.isRangeSatisfied == some true)) = true
      · rw [if_pos hs]
        exact jsGet_jsSet_ne bucket p0 pkg i0.new (Ne.symm h0)
      · rw [if_neg hs]

/-! ### Claim C3 -/

/-- C3: in a non-dry-run `update`, a pending peer-bucket change whose
relation has `isRangeSatisfied = true` is skipped: the peer entry of the
package keeps its current declaration, for every confirmation oracle and
even when `isDowngrade` is also set. -/
theorem C3_peer_satisfied_skipped (pj : PackageJson)
    (catalogs : List (String × Catalog)) (confirm : String → Bool)
    (res : UpdateResult) (h : update pj catalogs false confirm = .ok res)
    (pkg : String) (info : UpdateInfo)
    (hmem : jsGet res.updates.peerDependencies pkg = some info)
    (hsat : info.isRangeSatisfied = some true) :
    res.manifest.peerDependencies.bind (fun b => jsGet b pkg) =
      pj.peerDependencies.bind (fun b => jsGet b pkg) := by
  rcases update_ok_inv pj catalogs false confirm res h with
    ⟨u, hc, hru, hcases⟩
  rcases hcases with ⟨_, hres⟩ | ⟨_, hdry, _⟩ | ⟨_, _, hres⟩
  · rw [hres]
  · exact absurd hdry (by simp)
  · have hparts := computeUpdates_parts pj catalogs u hc
    have hnd : NodupKeys u.peerDependencies := by
      cases hb : pj.peerDependencies with
      | none =>
        have hpe := hparts.2.2
        rw [hb] at hpe
        have : ([] : List (String × UpdateInfo)) = u.peerDependencies := by
          simpa [computeBucket] using hpe
        rw [← this]
        simp [NodupKeys]
      | some bucket =>
        have hpe := hparts.2.2
        rw [hb] at hpe
        exact bucketUpdatesGo_nodup catalogs bucket [] u.peerDependencies
          (by simp [NodupKeys]) (by simpa [computeBucket] using hpe)
    rw [hru] at hmem
    rw [hres]
    cases hb : pj.peerDependencies with
    | none => simp [hb]
    | some bucket =>
      simp only [hb, Option.map_some', Option.some_bind]
      exact applyBucket_skip confirm u.peerDependencies bucket pkg info
        hnd hmem hsat

/-- Witness for C3: the peer declaration `>=17.0.0` already covers the
catalog version `18.2.0`; the run records the change but the manifest
entry is untouched. -/
theorem C3_peer_satisfied_skipped_witness :
    (UpdateResult.mk
        ⟨[], [], [("react", ⟨">=17.0.0", "18.2.0", "core", false, some true⟩)]⟩
        ⟨none, none, some [("react", ">=17.0.0")]⟩ true
        []).manifest.peerDependencies.bind (fun b => jsGet b "react") =
      (PackageJson.mk none none
        (some [("react", ">=17.0.0")])).peerDependencies.bind
        (fun b => jsGet b "react") :=
  C3_peer_satisfied_skipped ⟨none, none, some [("react", ">=17.0.0")]⟩
    [("core", [("react", "18.2.0")])] (fun _ => true)
    ⟨⟨[], [], [("react", ⟨">=17.0.0", "18.2.0", "core", false, some true⟩)]⟩,
      ⟨none, none, some [("react", ">=17.0.0")]⟩, true, []⟩
    (by decide) "react" ⟨">=17.0.0", "18.2.0", "core", false, some true⟩
    (by decide) (by decide)

/-! ### Claim C5 (corrected) -/

/-- C5 counterexample: two catalogs declare `p` with versions differing
from the declaration `0.5.0`, yet the scan records a single pending
change, the one of the last category `b` — not one change per matching
category as the claim states. -/
theorem C5_counterexample :
    computeUpdates ⟨some [("p", "0.5.0")], none, none⟩
        [("a", [("p", "1.0.0")]), ("b", [("p", "2.0.0")])] =
      .ok ⟨[("p", ⟨"0.5.0", "2.0.0", "b", false, none⟩)], [], []⟩ := by
  decide

/-- A run of catalogs in which no entry for `pkg` is nonempty and
different from the current declaration leaves the accumulated pending
change untouched. -/
theorem findUpdateGo_no_match (pkg cur : String)
    (post : List (String × Catalog))
    (hpost : ∀ c kc, (c, kc) ∈ post → ∀ w, jsGet kc pkg = some w →
      w = "" ∨ w = cur) :
    ∀ acc, findUpdateGo pkg cur acc post = .ok acc := by
  induction post with
  | nil => intro acc; rfl
  | cons hd tl ih =>
    obtain ⟨c, kc⟩ := hd
    intro acc
    have htl : ∀ c kc, (c, kc) ∈ tl → ∀ w, jsGet kc pkg = some w →
        w = "" ∨ w = cur := by
      intro c' kc' hm w hw
      exact hpost c' kc' (List.mem_cons.mpr (Or.inr hm)) w hw
    rw [findUpdateGo]
    cases hk : jsGet kc pkg with
    | none => exact ih htl acc
    | some w =>
      have hw := hpost c kc (List.mem_cons.mpr (Or.inl rfl)) w hk
      have hcond : ¬(w ≠ "" ∧ w ≠ cur) := by
        intro hc
        rcases hw with h | h
        · exact hc.1 h
        · exact hc.2 h
      simp only []
      rw [if_neg hcond]
      exact ih htl acc

/-- Processing a prefix of the catalog list first just transports the
accumulated pending change. -/
theorem findUpdateGo_prefix_trans (pkg cur : String)
    (pre : List (String × Catalog)) :
    ∀ (l2 : List (String × Catalog)) (acc acc' : Option UpdateInfo),
    findUpdateGo pkg cur acc pre = .ok acc' →
    findUpdateGo pkg cur acc (pre ++ l2) = findUpdateGo pkg cur acc' l2 := by
  induction pre with
  | nil =>
    intro l2 acc acc' hpre
    have : acc = acc' := by simpa [findUpdateGo] using hpre
    rw [List.nil_append, this]
  | cons hd tl ih =>
    obtain ⟨c, k⟩ := hd
    intro l2 acc acc' hpre
    rw [findUpdateGo] at hpre
    rw [List.cons_append, findUpdateGo]
    cases hk : jsGet k pkg with
    | none =>
      rw [hk] at hpre
      exact ih l2 acc acc' hpre
    | some v =>
      rw [hk] at hpre
      simp only [] at hpre ⊢
      by_cases hcond : v ≠ "" ∧ v ≠ cur
      · rw [if_pos hcond] at hpre ⊢
        cases hcmp : compareVersions cur v with
        | error e =>
          rw [hcmp] at hpre
          simp at hpre
        | ok r =>
          rw [hcmp] at hpre
          exact ih l2 _ acc' hpre
      · rw [if_neg hcond] at hpre ⊢
        exact ih l2 acc acc' hpre

/-- C5 (amended): the scan keeps one pending change per package, not one
per matching category: each later matching category overwrites the
recorded change, so when the catalog list is `pre ++ (category, k) :: post`
with `k` matching and nothing in `post` matching, the recorded change is
exactly the one built from the last matching category `(category, k)` —
that is the single line reported and the version applied on mutation. -/
theorem C5_amended_last_match_wins (pkg cur : String)
    (pre post : List (String × Catalog)) (category : String) (k : Catalog)
    (v : String) (r : VersionRelation) (acc acc' : Option UpdateInfo)
    (hpre : findUpdateGo pkg cur acc pre = .ok acc')
    (hv : jsGet k pkg = some v) (hne : v ≠ "" ∧ v ≠ cur)
    (hcmp : compareVersions cur v = .ok r)
    (hpost : ∀ c kc, (c, kc) ∈ post → ∀ w, jsGet kc pkg = some w →
      w = "" ∨ w = cur) :
    findUpdateGo pkg cur acc (pre ++ (category, k) :: post) =
      .ok (some ⟨cur, v, category, r.isDowngrade, r.isRangeSatisfied⟩) := by
  rw [findUpdateGo_prefix_trans pkg cur pre _ acc acc' hpre]
  rw [findUpdateGo]
  rw [hv]
  simp only []
  rw [if_pos hne, hcmp]
  exact findUpdateGo_no_match pkg cur post hpost _

/-- Witness for the amended C5 at the concrete two-catalog collision. -/
theorem C5_amended_last_match_wins_witness :
    findUpdateGo "p" "0.5.0" none
        ([("a", [("p", "1.0.0")])] ++ [("b", [("p", "2.0.0")])]) =
      .ok (some ⟨"0.5.0", "2.0.0", "b",
        (VersionRelation.mk false none).isDowngrade,
        (VersionRelation.mk false none).isRangeSatisfied⟩) :=
  C5_amended_last_match_wins "p" "0.5.0" [("a", [("p", "1.0.0")])] []
    "b" [("p", "2.0.0")] "2.0.0" ⟨false, none⟩ none
    (some ⟨"0.5.0", "1.0.0", "a", false, none⟩) (by decide) (by decide)
    (by decide) (by decide) (by intro c kc hm; simp at hm)

/-! ### Claim C7 -/

/-- The per-package refresh loop keeps every catalog entry, replacing the
version by the registry answer when the lookup succeeds and retaining the
current version when it fails, and classifies each package as updated,
unchanged or failed. -/
theorem refreshGo_spec (reg : String → Option String)
    (deps : List (String × String)) :
    refreshGo reg deps =
      (deps.map (applyReg reg),
       (deps.filter (lookupChanged reg)).length,
       (deps.filter (lookupChanged reg)).map Prod.fst,
       (deps.filter (lookupSame reg)).map Prod.fst,
       (deps.filter (lookupFailed reg)).map Prod.fst) := by
  induction deps with
  | nil => rfl
  | cons e rest ih =>
    obtain ⟨pkg, cur⟩ := e
    rw [refreshGo, ih]
    cases hr : reg pkg with
    | some l =>
      by_cases hl : l ≠ cur
      · simp [applyReg, lookupChanged, lookupSame, lookupFailed, hr, hl,
          List.filter_cons]
      · push_neg at hl
        simp [applyReg, lookupChanged, lookupSame, lookupFailed, hr, hl,
          List.filter_cons]
    | none =>
      simp [applyReg, lookupChanged, lookupSame, lookupFailed, hr,
        List.filter_cons]

/-- C7: a catalog refresh backs the file up and then rewrites it in full
exactly when at least one version changed; with zero changes the file is
untouched and no backup is made; a failed lookup retains the entry and
processing continues — and the concrete two-package scenario behaves as
the specification describes. -/
theorem C7_refresher (deps : List (String × String))
    (reg : String → Option String) :
    ((updateCategory deps reg).updatedDeps = deps.map (applyReg reg)) ∧
    ((updateCategory deps reg).updateCount =
      (deps.filter (lookupChanged reg)).length) ∧
    ((updateCategory deps reg).updateCount > 0 →
      (updateCategory deps reg).events = [.backup, .write] ∧
      (updateCategory deps reg).fileAfter = deps.map (applyReg reg)) ∧
    ((updateCategory deps reg).updateCount = 0 →
      (updateCategory deps reg).events = [] ∧
      (updateCategory deps reg).fileAfter = deps) ∧
    ((updateCategory deps reg).failed =
      (deps.filter (lookupFailed reg)).map Prod.fst) ∧
    ((updateCategory deps reg).updated =
      (deps.filter (lookupChanged reg)).map Prod.fst) ∧
    ((updateCategory deps reg).unchanged =
      (deps.filter (lookupSame reg)).map Prod.fst) ∧
    updateCategory [("a", "1.0.0"), ("b", "2.0.0")] regScenario =
      ⟨[("a", "1.0.0"), ("b", "2.1.0")], 1, ["b"], ["a"], [],
        [.backup, .write], [("a", "1.0.0"), ("b", "2.1.0")]⟩ := by
  have hspec := refreshGo_spec reg deps
  unfold updateCategory
  rw [hspec]
  simp only []
  by_cases hn : (deps.filter (lookupChanged reg)).length > 0
  · rw [if_pos hn]
    exact ⟨rfl, rfl, fun _ => ⟨rfl, rfl⟩,
      fun h0 => absurd h0 (Nat.pos_iff_ne_zero.mp hn),
      rfl, rfl, rfl, by decide⟩
  · rw [if_neg hn]
    exact ⟨rfl, rfl, fun h0 => absurd h0 hn, fun _ => ⟨rfl, rfl⟩,
      rfl, rfl, rfl, by decide⟩

/-- Witness for C7: in the concrete scenario one package changed, so the
refresh produces a backup followed by the full rewrite. -/
theorem C7_refresher_witness :
    (updateCategory [("a", "1.0.0"), ("b", "2.0.0")] regScenario).events =
        [.backup, .write] ∧
      (updateCategory [("a", "1.0.0"), ("b", "2.0.0")] regScenario).fileAfter =
        [("a", "1.0.0"), ("b", "2.0.0")].map (applyReg regScenario) :=
  (C7_refresher [("a", "1.0.0"), ("b", "2.0.0")] regScenario).2.2.1
    (by decide)

/-! ### Claim C6 (corrected): lemmas for the amended idempotence -/

/-- Once the inner catalog loop has accumulated a pending change it never
reports `none` again. -/
theorem findUpdateGo_some_stays (pkg cur : String) :
    ∀ (cats : List (String × Catalog)) (i : UpdateInfo),
    findUpdateGo pkg cur (some i) cats ≠ .ok none := by
  intro cats
  induction cats with
  | nil =>
    intro i h
    simp [findUpdateGo] at h
  | cons hd tl ih =>
    obtain ⟨c, k⟩ := hd
    intro i h
    rw [findUpdateGo] at h
    cases hk : jsGet k pkg with
    | none =>
      rw [hk] at h
      exact ih i h
    | some v =>
      rw [hk] at h
      simp only [] at h
      by_cases hcond : v ≠ "" ∧ v ≠ cur
      · rw [if_pos hcond] at h
        cases hcmp : compareVersions cur v with
        | error e =>
          rw [hcmp] at h
          simp at h
        | ok r =>
          rw [hcmp] at h
          exact ih _ h
      · rw [if_neg hcond] at h
        exact ih i h

/-- When the inner catalog loop reports no pending change, no catalog
entry for the package was nonempty and different from the declaration. -/
theorem findUpdateGo_none_char (pkg cur : String) :
    ∀ (cats : List (String × Catalog)),
    findUpdateGo pkg cur none cats = .ok none →
    ∀ c kc, (c, kc) ∈ cats → ∀ w, jsGet kc pkg = some w →
      w = "" ∨ w = cur := by
  intro cats
  induction cats with
  | nil =>
    intro _ c kc hm
    simp at hm
  | cons hd tl ih =>
    obtain ⟨c0, k0⟩ := hd
    intro h c kc hm w hw
    rw [findUpdateGo] at h
    cases hk : jsGet k0 pkg with
    | none =>
      rw [hk] at h
      rcases List.mem_cons.mp hm with he | he
      · injection he with he1 he2
        subst he2
        rw [hk] at hw
        simp at hw
      · exact ih h c kc he w hw
    | some v =>
      rw [hk] at h
      simp only [] at h
      by_cases hcond : v ≠ "" ∧ v ≠ cur
      · rw [if_pos hcond] at h
        cases hcmp : compareVersions cur v with
        | error e =>
          rw [hcmp] at h
          simp at h
        | ok r =>
          rw [hcmp] at h
          exact absurd h (findUpdateGo_some_stays pkg cur tl _)
      · rw [if_neg hcond] at h
        rcases List.mem_cons.mp hm with he | he
        · injection he with he1 he2
          subst he2
          rw [hk] at hw
          injection hw with hw
          subst hw
          by_cases hv : v = ""
          · exact Or.inl hv
          · right
            by_contra hv2
            exact hcond ⟨hv, hv2⟩
        · exact ih h c kc he w hw

/-- The keys of the per-bucket accumulator only grow along the scan. -/
theorem bucketUpdatesGo_keys_mono (cats : List (String × Catalog))
    (bucket : List (String × String)) :
    ∀ (acc ups : List (String × UpdateInfo)),
    bucketUpdatesGo cats acc bucket = .ok ups →
    ∀ x, x ∈ acc.map Prod.fst → x ∈ ups.map Prod.fst := by
  induction bucket with
  | nil =>
    intro acc ups h x hx
    have : acc = ups := by simpa [bucketUpdatesGo] using h
    rwa [← this]
  | cons e t ih =>
    obtain ⟨pkg0, cur0⟩ := e
    intro acc ups h x hx
    rw [bucketUpdatesGo] at h
    cases hf : findUpdateGo pkg0 cur0 none cats with
    | error e' => rw [hf] at h; simp at h
    | ok o =>
      rw [hf] at h
      cases o with
      | none => exact ih acc ups h x hx
      | some i =>
        exact ih _ ups h x ((mem_keys_jsSet acc pkg0 x i).mpr (Or.inl hx))

/-- A bucket entry that ends up outside the recorded change set scanned to
`none`. -/
theorem bucketUpdatesGo_none_of_notin (cats : List (String × Catalog))
    (bucket : List (String × String)) :
    ∀ (acc ups : List (String × UpdateInfo)),
    bucketUpdatesGo cats acc bucket = .ok ups →
    ∀ pkg v, (pkg, v) ∈ bucket → pkg ∉ ups.map Prod.fst →
    findUpdateGo pkg v none cats = .ok none := by
  induction bucket with
  | nil =>
    intro acc ups _ pkg v hm
    simp at hm
  | cons e t ih =>
    obtain ⟨pkg0, cur0⟩ := e
    intro acc ups h pkg v hm hn
    rw [bucketUpdatesGo] at h
    cases hf : findUpdateGo pkg0 cur0 none cats with
    | error e' => rw [hf] at h; simp at h
    | ok o =>
      rw [hf] at h
      rcases List.mem_cons.mp hm with he | he
      · injection he with he1 he2
        subst he1
        subst he2
        cases o with
        | none => exact hf
        | some i =>
          exfalso
          apply hn
          exact bucketUpdatesGo_keys_mono cats t _ ups h pkg
            ((mem_keys_jsSet acc pkg pkg i).mpr (Or.inr rfl))
      · cases o with
        | none => exact ih acc ups h pkg v he hn
        | some i => exact ih _ ups h pkg v he hn

/-- When no entry of the bucket scans to a pending change, the whole scan
returns the accumulator unchanged. -/
theorem bucketUpdatesGo_all_none (cats : List (String × Catalog))
    (l : List (String × String)) :
    (∀ pkg v, (pkg, v) ∈ l → findUpdateGo pkg v none cats = .ok none) →
    ∀ acc, bucketUpdatesGo cats acc l = .ok acc := by
  induction l with
  | nil => intro _ acc; rfl
  | cons e t ih =>
    obtain ⟨pkg0, cur0⟩ := e
    intro hall acc
    rw [bucketUpdatesGo]
    rw [hall pkg0 cur0 (List.mem_cons.mpr (Or.inl rfl))]
    exact ih (fun pkg v hm => hall pkg v (List.mem_cons.mpr (Or.inr hm))) acc

/-- The apply loop preserves distinctness of the bucket keys. -/
theorem applyBucket_nodupKeys (confirm : String → Bool) (isPeer : Bool) :
    ∀ (ups : List (String × UpdateInfo)) (bucket : List (String × String)),
    NodupKeys bucket → NodupKeys (applyBucket confirm isPeer ups bucket) := by
  intro ups
  induction ups with
  | nil => intro bucket h; exact h
  | cons e rest ih =>
    obtain ⟨p0, i0⟩ := e
    intro bucket h
    simp only [applyBucket]
    apply ih
    by_cases hs : ((if i0.isDowngrade = true then confirm p0 else true) &&
        !(isPeer && i0.isRangeSatisfied == some true)) = true
    · rw [if_pos hs]
      exact nodupKeys_jsSet bucket p0 i0.new h
    · rw [if_neg hs]
      exact h

/-- An applied pending change overwrites the bucket entry with the target
version. -/
theorem applyBucket_applied (confirm : String → Bool) (isPeer : Bool) :
    ∀ (ups : List (String × UpdateInfo)) (bucket : List (String × String))
      (pkg : String) (info : UpdateInfo),
    NodupKeys ups → (pkg, info) ∈ ups →
    (info.isDowngrade = true → confirm pkg = true) →
    ¬(isPeer = true ∧ info.isRangeSatisfied = some true) →
    jsGet (applyBucket confirm isPeer ups bucket) pkg = some info.new := by
  intro ups
  induction ups with
  | nil =>
    intro bucket pkg info _ hm
    simp at hm
  | cons e rest ih =>
    obtain ⟨p0, i0⟩ := e
    intro bucket pkg info hnd hm hconf hpeer
    rw [nodupKeys_cons] at hnd
    rcases List.mem_cons.mp hm with he | he
    · injection he with he1 he2
      subst he1
      subst he2
      have hrs : (isPeer && info.isRangeSatisfied == some true) = false := by
        cases hp : isPeer with
        | false => simp
        | true =>
          have hns : info.isRangeSatisfied ≠ some true := fun hc =>
            hpeer ⟨hp, hc⟩
          simp [hns]
      have hsU : ((if info.isDowngrade = true then confirm pkg else true) &&
          !(isPeer && info.isRangeSatisfied == some true)) = true := by
        rw [hrs]
        simp only [Bool.not_false, Bool.and_true]
        cases hd : info.isDowngrade with
        | false => simp
        | true => simp [hconf hd]
      simp only [applyBucket]
      rw [hsU]
      simp only [if_pos]
      rw [applyBucket_jsGet_notin confirm isPeer rest _ pkg hnd.1]
      exact jsGet_jsSet_self bucket pkg info.new
    · have hne : p0 ≠ pkg := by
        intro he0
        subst he0
        exact hnd.1 (List.mem_map.mpr ⟨(p0, info), he, rfl⟩)
      simp only [applyBucket]
      exact ih _ pkg info hnd.2 he hconf hpeer

/-- After a run that applied every pending change of one bucket, a fresh
scan of that bucket finds nothing, provided no two catalogs disagree. -/
theorem bucket_second_run (cats : List (String × Catalog))
    (confirm : String → Bool) (isPeer : Bool)
    (bucket : List (String × String)) (ups : List (String × UpdateInfo))
    (hnb : NodupKeys bucket) (hagree : catalogsAgree cats)
    (hups : bucketUpdatesGo cats [] bucket = .ok ups)
    (happ : ∀ pkg info, (pkg, info) ∈ ups →
      (info.isDowngrade = true → confirm pkg = true) ∧
      ¬(isPeer = true ∧ info.isRangeSatisfied = some true)) :
    bucketUpdatesGo cats [] (applyBucket confirm isPeer ups bucket) =
      .ok [] := by
  have hndu : NodupKeys ups :=
    bucketUpdatesGo_nodup cats bucket [] ups (by simp [NodupKeys]) hups
  have hndb : NodupKeys (applyBucket confirm isPeer ups bucket) :=
    applyBucket_nodupKeys confirm isPeer ups bucket hnb
  apply bucketUpdatesGo_all_none
  intro pkg v hm
  have hget : jsGet (applyBucket confirm isPeer ups bucket) pkg = some v :=
    jsGet_eq_some_of_mem _ pkg v hndb hm
  by_cases hk : pkg ∈ ups.map Prod.fst
  · have hx : ∃ info, (pkg, info) ∈ ups := by
      obtain ⟨⟨pk, info⟩, hp, hpk⟩ := List.mem_map.mp hk
      simp only [] at hpk
      subst hpk
      exact ⟨info, hp⟩
    obtain ⟨info, hp⟩ := hx
    have happ' := happ pkg info hp
    have hap : jsGet (applyBucket confirm isPeer ups bucket) pkg =
        some info.new :=
      applyBucket_applied confirm isPeer ups bucket pkg info hndu hp
        happ'.1 happ'.2
    have hv : v = info.new := by
      have h2 := hget.symm.trans hap
      exact Option.some.inj h2
    rcases bucketUpdatesGo_mem_src cats bucket [] ups hups pkg info hp with
      hfalse | ⟨cur, _, hfind⟩
    · simp at hfalse
    · rcases findUpdateGo_ok_some_src pkg cur cats none info hfind with
        hfalse | ⟨c, k, hmc, hgk, hne, _, _, _, _⟩
      · simp at hfalse
      · subst hv
        apply findUpdateGo_no_match
        intro c' kc' hmc' w hw
        by_cases hw0 : w = ""
        · exact Or.inl hw0
        · exact Or.inr
            (hagree c' kc' c k pkg w info.new hmc' hmc hw hgk hw0 hne)
  · rw [applyBucket_jsGet_notin confirm isPeer ups bucket pkg hk] at hget
    exact bucketUpdatesGo_none_of_notin cats bucket [] ups hups pkg v
      (mem_of_jsGet_eq_some bucket pkg v hget) hk

/-! ### Claim C6 (corrected): counterexample and amended theorem -/

/-- C6 counterexample: a peer declaration `>=17.0.0` against catalog
version `18.2.0` is recorded, skipped as already satisfied, and the
manifest is saved unchanged — so a second run records the very same
pending change again instead of zero changes. -/
theorem C6_counterexample :
    update ⟨none, none, some [("react", ">=17.0.0")]⟩
        [("core", [("react", "18.2.0")])] false (fun _ => true) =
      .ok ⟨⟨[], [],
          [("react", ⟨">=17.0.0", "18.2.0", "core", false, some true⟩)]⟩,
        ⟨none, none, some [("react", ">=17.0.0")]⟩, true, []⟩ ∧
    computeUpdates ⟨none, none, some [("react", ">=17.0.0")]⟩
        [("core", [("react", "18.2.0")])] =
      .ok ⟨[], [],
        [("react", ⟨">=17.0.0", "18.2.0", "core", false, some true⟩)]⟩ ∧
    ([("react",
        (⟨">=17.0.0", "18.2.0", "core", false, some true⟩ : UpdateInfo))] ≠
      ([] : List (String × UpdateInfo))) := by
  exact ⟨by decide, by decide, by decide⟩

/-- C6 (amended): reconciliation is idempotent only when the first run
applies every pending change: if every recorded downgrade is confirmed, no
recorded peer change is range-satisfied, no two catalogs declare the same
package with different nonempty versions, and the manifest buckets have
distinct keys, then a second scan of the resulting manifest with the same
catalogs finds zero pending changes. (Without those provisos skipped
changes — declined downgrades, satisfied peer ranges, shadowed catalog
collisions — are found again, as the counterexample shows.) -/
theorem C6_amended_idempotent (pj : PackageJson)
    (catalogs : List (String × Catalog)) (confirm : String → Bool)
    (res : UpdateResult) (hwf : manifestWF pj)
    (hagree : catalogsAgree catalogs)
    (hrun : update pj catalogs false confirm = .ok res)
    (hconf : ∀ pkg info, inUpdates res.updates pkg info →
      info.isDowngrade = true → confirm pkg = true)
    (hpeer : ∀ pkg info, (pkg, info) ∈ res.updates.peerDependencies →
      info.isRangeSatisfied ≠ some true) :
    computeUpdates res.manifest catalogs = .ok ⟨[], [], []⟩ := by
  rcases update_ok_inv pj catalogs false confirm res hrun with
    ⟨u, hc, hru, hcases⟩
  have hparts := computeUpdates_parts pj catalogs u hc
  rcases hcases with ⟨hu, hres⟩ | ⟨_, hdry, _⟩ | ⟨hu, _, hres⟩
  · have he : (u.dependencies = [] ∧ u.devDependencies = []) ∧
        u.peerDependencies = [] := by
      simpa [hasUpdates] using hu
    rw [hres]
    show computeUpdates pj catalogs = .ok ⟨[], [], []⟩
    rw [hc]
    obtain ⟨⟨hd, hdv⟩, hp⟩ := he
    cases u
    simp only [] at hd hdv hp
    subst hd
    subst hdv
    subst hp
    rfl
  · exact absurd hdry (by simp)
  · have hSecond : ∀ (isPeer : Bool) (ob : Option (List (String × String)))
        (ups : List (String × UpdateInfo)),
        (∀ b, ob = some b → NodupKeys b) →
        computeBucket catalogs ob = .ok ups →
        (∀ pkg info, (pkg, info) ∈ ups →
          (info.isDowngrade = true → confirm pkg = true) ∧
          ¬(isPeer = true ∧ info.isRangeSatisfied = some true)) →
        computeBucket catalogs
          (ob.map (applyBucket confirm isPeer ups)) = .ok [] := by
      intro isPeer ob ups hwfb hcb happ
      cases ob with
      | none => rfl
      | some bucket =>
        have hups : bucketUpdatesGo catalogs [] bucket = .ok ups := by
          simpa [computeBucket] using hcb
        simpa [computeBucket] using
          bucket_second_run catalogs confirm isPeer bucket ups
            (hwfb bucket rfl) hagree hups happ
    rw [hres]
    show computeUpdates
      ⟨pj.dependencies.map (applyBucket confirm false u.dependencies),
       pj.devDependencies.map (applyBucket confirm false u.devDependencies),
       pj.peerDependencies.map (applyBucket confirm true u.peerDependencies)⟩
      catalogs = .ok ⟨[], [], []⟩
    have h1 : computeBucket catalogs
        (pj.dependencies.map (applyBucket confirm false u.dependencies)) =
          .ok [] := by
      apply hSecond false pj.dependencies u.dependencies hwf.1 hparts.1
      intro pkg info hm
      refine ⟨?_, by simp⟩
      intro hd
      exact hconf pkg info (by rw [hru]; exact Or.inl hm) hd
    have h2 : computeBucket catalogs
        (pj.devDependencies.map
          (applyBucket confirm false u.devDependencies)) = .ok [] := by
      apply hSecond false pj.devDependencies u.devDependencies hwf.2.1
        hparts.2.1
      intro pkg info hm
      refine ⟨?_, by simp⟩
      intro hd
      exact hconf pkg info (by rw [hru]; exact Or.inr (Or.inl hm)) hd
    have h3 : computeBucket catalogs
        (pj.peerDependencies.map
          (applyBucket confirm true u.peerDependencies)) = .ok [] := by
      apply hSecond true pj.peerDependencies u.peerDependencies hwf.2.2
        hparts.2.2
      intro pkg info hm
      constructor
      · intro hd
        exact hconf pkg info (by rw [hru]; exact Or.inr (Or.inr hm)) hd
      · intro hcontra
        exact hpeer pkg info (by rw [hru]; exact hm) hcontra.2
    unfold computeUpdates
    rw [h1, h2, h3]

/-- Witness for the amended C6: the concrete upgrade is applied on the
first run; the second scan finds nothing. -/
theorem C6_amended_idempotent_witness :
    computeUpdates
        (UpdateResult.mk
          ⟨[("react", ⟨"17.0.0", "18.2.0", "core", false, none⟩)], [], []⟩
          ⟨some [("react", "18.2.0")], none, none⟩ true []).manifest
        [("core", [("react", "18.2.0")])] = .ok ⟨[], [], []⟩ :=
  C6_amended_idempotent ⟨some [("react", "17.0.0")], none, none⟩
    [("core", [("react", "18.2.0")])] (fun _ => true)
    ⟨⟨[("react", ⟨"17.0.0", "18.2.0", "core", false, none⟩)], [], []⟩,
      ⟨some [("react", "18.2.0")], none, none⟩, true, []⟩
    (by constructor
        · intro b hb
          injection hb with hb
          rw [← hb]
          simp [NodupKeys]
        · constructor <;> intro b hb <;> simp at hb)
    (by intro c1 k1 c2 k2 pkg v1 v2 h1 h2 hg1 hg2 _ _
        simp at h1 h2
        rw [h1.2] at hg1
        rw [h2.2] at hg2
        rw [hg1] at hg2
        injection hg2)
    (by decide)
    (by intro pkg info hm hd
        rfl)
    (by intro pkg info hm
        simp at hm)

end MfDeps
